import Mathlib

/-!
Verification of the prime-search core of `src/simple_finder.py`
(license-plate-prime-finder).

The Python functions are embedded as Lean definitions:
  * `is_prime`            — the trial-division Oracle (lines 188-201);
  * `is_prime_primesdb`   — the Packed-Index lookup with Oracle fallback
                            (lines 50-95); the global `primesdb_data` buffer
                            is passed explicitly as an `Option (List Nat)`
                            (`none` models "no data loaded and loading fails");
  * `find_primes_near`    — the directional Scanner (lines 97-126);
  * `find_closest_primes` — the Closest-Primes Aggregator (lines 275-323),
                            modelled up to the (prime, distance) pairs that the
                            presentation dictionary is built from;
  * `to_base10` / `to_base36` — base-36 string conversions (lines 250-273),
                            with Python strings modelled as `List Char`.

Machine integers: Python integers are unbounded, so `Nat` is used for all
non-negative quantities (every cursor the Scanner ever tests is `> 1`, and the
cursor updates never underflow through zero in a way Python's signed values
would distinguish: from `number = 0` downward Python holds `-1` and the model
holds `0`, and both fail the `current > 1` loop guard immediately).
-/

namespace SimpleFinder

/-- Trial-division loop of `is_prime` (src/simple_finder.py lines 196-200):
`i = 5`; `while i * i <= n:` test `n % i == 0 or n % (i + 2) == 0`, else
`i += 6`. -/
def trialLoop (n : Nat) (i : Nat) : Bool :=
  if h : i * i ≤ n then
    if n % i == 0 || n % (i + 2) == 0 then false
    else trialLoop n (i + 6)
  else true
termination_by n + 1 - i
decreasing_by
  have hi : i ≤ n := by
    rcases Nat.eq_zero_or_pos i with h0 | h1
    · omega
    · exact le_trans (Nat.le_mul_of_pos_left i h1) h
  omega

/-- Oracle `is_prime` (src/simple_finder.py lines 188-201). -/
def is_prime (n : Nat) : Bool :=
  if n ≤ 1 then false
  else if n ≤ 3 then true
  else if n % 2 == 0 || n % 3 == 0 then false
  else trialLoop n 5

/-- Bit-position table `bit_positions = {1: 0, 3: 1, 7: 2, 9: 3}` of
`is_prime_primesdb` (line 84); the argument is one of 1, 3, 7, 9 at the call
site, and 9 is the fall-through branch. -/
def bitPositions (lastDigit : Nat) : Nat :=
  if lastDigit = 1 then 0
  else if lastDigit = 3 then 1
  else if lastDigit = 7 then 2
  else 3

/-- Byte address computed by `is_prime_primesdb` (line 76).  The Python code
computes `int(decade / 2 + 0.5) - 1` with real division; on non-negative
integers `int(decade / 2 + 0.5)` is round-half-up, i.e. `(decade + 1) / 2` in
integer arithmetic (the float arithmetic computes it exactly for every decade
below 2^53, far beyond the 64-bit design range of the spec).  The result is
`-1` exactly when `decade = 0`. -/
def pdbAddress (number : Nat) : Int :=
  ((number / 10 + 1) / 2 : Nat) - 1

/-- Bit offset computed by `is_prime_primesdb` (lines 83-89): the position of
the last digit within (1,3,7,9), plus 4 when the decade is even. -/
def pdbBitPos (number : Nat) : Nat :=
  if (number / 10) % 2 = 0 then bitPositions (number % 10) + 4
  else bitPositions (number % 10)

/-- Packed-Index primality check `is_prime_primesdb` (lines 50-95).  The
global `primesdb_data` byte buffer is passed explicitly as `buffer`; `none`
models the state where no data is loaded and `download_primesdb()` fails, in
which case line 58 falls back to the Oracle. -/
def is_prime_primesdb (buffer : Option (List Nat)) (number : Nat) : Bool :=
  match buffer with
  | none => is_prime number
  | some data =>
    if number < 2 then false
    else if number = 2 ∨ number = 3 ∨ number = 5 ∨ number = 7 then true
    else if number % 2 = 0 ∨ number % 3 = 0 ∨ number % 5 = 0 then false
    else if number % 10 ∈ ([1, 3, 7, 9] : List Nat) then
      if pdbAddress number < 0 ∨ (data.length : Int) ≤ pdbAddress number then
        is_prime number
      else
        ((data.getD (pdbAddress number).toNat 0 >>> pdbBitPos number) &&& 1) == 1
    else false

/-- Scanner loop of `find_primes_near` (lines 121-124): while fewer than
`count` primes are collected and `1 < current < 10^10`, append `current` when
the packed check accepts it, then advance by `step` (+1 exactly when
`direction == 'larger'`, i.e. `up = true`, else -1). -/
def scanLoop (check : Nat → Bool) (count : Nat) (up : Bool) (current : Nat)
    (result : List Nat) : List Nat :=
  if h : result.length < count ∧ 1 < current ∧ current < 10 ^ 10 then
    scanLoop check count up (if up then current + 1 else current - 1)
      (if check current then result ++ [current] else result)
  else result
termination_by if up then 10 ^ 10 - current else current
decreasing_by
  rcases h with ⟨-, h1, h2⟩
  cases up <;> simp <;> omega

/-- Directional Scanner `find_primes_near` (lines 97-126).  When the buffer is
unavailable and loading fails, lines 102-105 return `[]` without scanning. -/
def find_primes_near (buffer : Option (List Nat)) (number count : Nat)
    (direction : String) : List Nat :=
  match buffer with
  | none => []
  | some data =>
    let current := if direction == "smaller" then number - 1 else number + 1
    scanLoop (fun m => is_prime_primesdb (some data) m) count
      (direction == "larger") current []

/-- Modelled from the spec: the Scanner behaviour that §4.3 and §6 of the spec
require when `get_index_buffer()` yields nothing — every Packed-Index lookup
behaves as absent and the scan transparently falls back to the Oracle for
every query, instead of being cut short.  (The code under `src/` instead
returns `[]` when the buffer is unavailable; the two definitions agree
whenever `buffer` is `some` data.) -/
def find_primes_near_spec (buffer : Option (List Nat)) (number count : Nat)
    (direction : String) : List Nat :=
  let current := if direction == "smaller" then number - 1 else number + 1
  scanLoop (fun m => is_prime_primesdb buffer m) count
    (direction == "larger") current []

/-- Closest-Primes Aggregator `find_closest_primes` (lines 275-323), modelled
up to the ordered list of (prime, distance) pairs `result[:count]` from which
the result dictionaries are built (the final loop of the Python function only
converts each pair to a dictionary, preserving order, length, primes and
distances; `has_letters` only selects the string rendering of the prime).
Python's `list.sort(key=...)` is an ascending stable sort, modelled by
`List.mergeSort` on the distance component. -/
def find_closest_primes (buffer : Option (List Nat)) (number : Nat)
    (count : Nat) : List (Nat × Nat) :=
  let larger_primes := find_primes_near buffer number count "larger"
  let smaller_primes := find_primes_near buffer number count "smaller"
  let result := larger_primes.map (fun p => (p, p - number)) ++
    smaller_primes.map (fun p => (p, number - p))
  (result.mergeSort (fun a b => decide (a.2 ≤ b.2))).take count

/-- Digit alphabet `chars = '0123456789ABCDEFGHIJKLMNOPQRSTUVWXYZ'` used by
`to_base36` (line 266). -/
def base36Chars : List Char := "0123456789ABCDEFGHIJKLMNOPQRSTUVWXYZ".toList

/-- Per-character value used by `to_base10` (lines 254-257): decimal digits map
to their value, anything else maps through uppercase to `ord - ord('A') + 10`. -/
def base36DigitVal (c : Char) : Nat :=
  if c.isDigit then c.toNat - '0'.toNat
  else c.toUpper.toNat - 'A'.toNat + 10

/-- Decoder `to_base10` (lines 250-259), with the Python string modelled as its
list of characters: `result = result * 36 + value` over the characters. -/
def to_base10 (text : List Char) : Nat :=
  text.foldl (fun result c => result * 36 + base36DigitVal c) 0

/-- Encoder loop of `to_base36` (lines 269-271): while `number > 0`, prepend
`chars[number % 36]` and divide `number` by 36. -/
def to_base36_loop (number : Nat) (result : List Char) : List Char :=
  if h : 0 < number then
    to_base36_loop (number / 36) (base36Chars.getD (number % 36) '0' :: result)
  else result
termination_by number
decreasing_by exact Nat.div_lt_self h (by omega)

/-- Encoder `to_base36` (lines 261-273). -/
def to_base36 (number : Nat) : List Char :=
  if number = 0 then ['0'] else to_base36_loop number []

/-- Fuel-indexed copy of `scanLoop`, used to state the termination claim C8:
it returns `none` when the fuel runs out before the loop's own exit
conditions (count reached, or cursor at 1 or below, or at 10^10 or above)
fire. -/
def scanLoopFuel (check : Nat → Bool) (count : Nat) (up : Bool) :
    Nat → Nat → List Nat → Option (List Nat)
  | 0, current, result =>
    if result.length < count ∧ 1 < current ∧ current < 10 ^ 10 then none
    else some result
  | fuel + 1, current, result =>
    if result.length < count ∧ 1 < current ∧ current < 10 ^ 10 then
      scanLoopFuel check count up fuel (if up then current + 1 else current - 1)
        (if check current then result ++ [current] else result)
    else some result

/-- Fuel-indexed copy of `find_primes_near`, for the termination claim C8. -/
def find_primes_near_fuel (buffer : Option (List Nat)) (number count : Nat)
    (direction : String) (fuel : Nat) : Option (List Nat) :=
  match buffer with
  | none => some []
  | some data =>
    let current := if direction == "smaller" then number - 1 else number + 1
    scanLoopFuel (fun m => is_prime_primesdb (some data) m) count
      (direction == "larger") fuel current []

/-- The fast-path filters of `is_prime_primesdb` (lines 62-72), as listed in
claim C5: only numbers passing all of them consult the buffer. -/
def survives_fast_path (n : Nat) : Prop :=
  2 ≤ n ∧ n ≠ 2 ∧ n ≠ 3 ∧ n ≠ 5 ∧ n ≠ 7 ∧
    ¬ 2 ∣ n ∧ ¬ 3 ∣ n ∧ ¬ 5 ∣ n ∧ n % 10 ∈ ([1, 3, 7, 9] : List Nat)

instance : DecidablePred survives_fast_path := fun n => by
  unfold survives_fast_path
  infer_instance

/-- If the trial loop reports a divisor (returns `false`) starting from some
`i ≥ 5`, then `n` really has a proper divisor. -/
lemma trialLoop_false_divisor :
    ∀ n i, 5 ≤ i → trialLoop n i = false → ∃ d, 1 < d ∧ d < n ∧ d ∣ n := by
  intro n i
  induction i using trialLoop.induct (n := n) with
  | case1 i hle hdvd =>
    intro h5 _
    have h2i : 2 * i ≤ i * i := Nat.mul_le_mul_right i (by omega)
    rcases Bool.or_eq_true_iff.mp hdvd with h | h
    · exact ⟨i, by omega, by omega, Nat.dvd_of_mod_eq_zero (by simpa using h)⟩
    · exact ⟨i + 2, by omega, by omega,
        Nat.dvd_of_mod_eq_zero (by simpa using h)⟩
  | case2 i hle hdvd ih =>
    intro h5 hf
    rw [trialLoop, dif_pos hle, if_neg (by simp_all)] at hf
    exact ih (by omega) hf
  | case3 i hle =>
    intro _ hf
    rw [trialLoop, dif_neg hle] at hf
    exact absurd hf (by simp)

/-- Completeness of the trial loop: if `n` is odd, not divisible by 3, no
divisor of `n` lies below `i`, and `i ≡ 5 (mod 6)`, then the loop returning
`true` means `n` has no proper divisor at all. -/
lemma trialLoop_true_no_divisor :
    ∀ n i, 5 ≤ i → i % 6 = 5 → ¬ 2 ∣ n → ¬ 3 ∣ n →
      (∀ d, 1 < d → d < i → ¬ d ∣ n) → trialLoop n i = true →
      ∀ d, 1 < d → d < n → ¬ d ∣ n := by
  intro n i
  induction i using trialLoop.induct (n := n) with
  | case1 i hle hdvd =>
    intro _ _ _ _ _ ht
    rw [trialLoop, dif_pos hle, if_pos hdvd] at ht
    exact absurd ht (by simp)
  | case2 i hle hdvd ih =>
    intro h5 h6 h2 h3 hsmall ht
    rw [trialLoop, dif_pos hle, if_neg hdvd] at ht
    have hni : n % i ≠ 0 ∧ n % (i + 2) ≠ 0 := by
      constructor <;> intro hh <;> apply hdvd <;> simp [hh]
    refine ih (by omega) (by omega) h2 h3 ?_ ht
    intro d hd1 hdlt hddvd
    by_cases hlow : d < i
    · exact hsmall d hd1 hlow hddvd
    · push_neg at hlow
      have hmod : n % d = 0 := Nat.mod_eq_zero_of_dvd hddvd
      have hcase : d = i ∨ d = i + 1 ∨ d = i + 2 ∨ d = i + 3 ∨ d = i + 4 ∨ d = i + 5 := by
        omega
      rcases hcase with rfl | rfl | rfl | rfl | rfl | rfl
      · exact hni.1 hmod
      · exact h2 (dvd_trans (Nat.dvd_of_mod_eq_zero (by omega)) hddvd)
      · exact hni.2 hmod
      · exact h2 (dvd_trans (Nat.dvd_of_mod_eq_zero (by omega)) hddvd)
      · exact h3 (dvd_trans (Nat.dvd_of_mod_eq_zero (by omega)) hddvd)
      · exact h2 (dvd_trans (Nat.dvd_of_mod_eq_zero (by omega)) hddvd)
  | case3 i hle =>
    intro h5 h6 h2 h3 hsmall _ d hd1 hdlt hddvd
    have hin : n < i * i := by omega
    obtain ⟨e, he⟩ := hddvd
    have he1 : 1 < e := by
      rcases Nat.lt_or_ge e 2 with h | h
      · interval_cases e <;> omega
      · omega
    by_cases hdd : d * d ≤ n
    · have hdi : d < i := by
        by_contra hge
        push_neg at hge
        have : i * i ≤ d * d := Nat.mul_le_mul hge hge
        omega
      exact hsmall d hd1 hdi ⟨e, he⟩
    · push_neg at hdd
      have hed : e < d := by
        by_contra hge
        push_neg at hge
        have : d * d ≤ d * e := Nat.mul_le_mul_left d hge
        omega
      have hee : e * e < n := by
        have hpos : 0 < e := by omega
        have h1 : e * e < d * e := (Nat.mul_lt_mul_right hpos).mpr hed
        omega
      have hei : e < i := by
        by_contra hge
        push_neg at hge
        have : i * i ≤ e * e := Nat.mul_le_mul hge hge
        omega
      exact hsmall e he1 (by omega) ⟨d, by rw [he, Nat.mul_comm]⟩

/-- Full characterisation of the Oracle: `is_prime n` is `true` exactly when
`n ≥ 2` and `n` has no divisor strictly between 1 and `n`. -/
lemma is_prime_iff (n : Nat) :
    is_prime n = true ↔ (2 ≤ n ∧ ∀ d, 1 < d → d < n → ¬ d ∣ n) := by
  unfold is_prime
  by_cases h1 : n ≤ 1
  · rw [if_pos h1]
    constructor
    · intro h
      exact absurd h (by simp)
    · rintro ⟨h2, -⟩
      omega
  · rw [if_neg h1]
    by_cases h3 : n ≤ 3
    · rw [if_pos h3]
      have hn : n = 2 ∨ n = 3 := by omega
      constructor
      · intro _
        refine ⟨by omega, ?_⟩
        intro d hd1 hdn hdvd
        rcases hn with rfl | rfl
        · omega
        · interval_cases d
          omega
      · intro _
        rfl
    · rw [if_neg h3]
      by_cases h23 : (n % 2 == 0 || n % 3 == 0) = true
      · rw [if_pos h23]
        constructor
        · intro h
          exact absurd h (by simp)
        · rintro ⟨-, hnd⟩
          exfalso
          rcases Bool.or_eq_true_iff.mp h23 with h | h
          · exact hnd 2 (by omega) (by omega)
              (Nat.dvd_of_mod_eq_zero (by simpa using h))
          · exact hnd 3 (by omega) (by omega)
              (Nat.dvd_of_mod_eq_zero (by simpa using h))
      · rw [if_neg h23]
        have h2 : ¬ 2 ∣ n := fun hd => h23 (by simp [Nat.mod_eq_zero_of_dvd hd])
        have h3d : ¬ 3 ∣ n := fun hd => h23 (by simp [Nat.mod_eq_zero_of_dvd hd])
        constructor
        · intro ht
          refine ⟨by omega, ?_⟩
          refine trialLoop_true_no_divisor n 5 (by omega) (by omega) h2 h3d ?_ ht
          intro d hd1 hd5 hdvd
          have hd : d = 2 ∨ d = 3 ∨ d = 4 := by omega
          rcases hd with rfl | rfl | rfl
          · exact h2 hdvd
          · exact h3d hdvd
          · exact h2 (dvd_trans (by omega) hdvd)
        · rintro ⟨-, hnd⟩
          cases ht : trialLoop n 5 with
          | true => rfl
          | false =>
            obtain ⟨d, hd1, hdn, hdvd⟩ := trialLoop_false_divisor n 5 (by omega) ht
            exact absurd hdvd (hnd d hd1 hdn)

/-- The Oracle agrees with Mathlib primality. -/
lemma is_prime_iff_prime (n : Nat) : is_prime n = true ↔ Nat.Prime n := by
  rw [is_prime_iff, Nat.prime_def_lt']
  constructor
  · rintro ⟨h2, h⟩
    exact ⟨h2, fun m hm hmn => h m (by omega) hmn⟩
  · rintro ⟨h2, h⟩
    exact ⟨h2, fun d hd hdn => h d (by omega) hdn⟩

/-- C1: for every non-negative integer `n`, the trial-division Oracle
`is_prime(n)` returns true if and only if `n` is prime, i.e. `n ≥ 2` and `n`
has no divisor `d` with `1 < d < n`; in particular `n ≤ 1` yields false,
`n ∈ {2,3}` yields true, and any `n` divisible by 2 or 3 other than 2 and 3
yields false. -/
theorem oracle_trial_division_correct (n : Nat) :
    (is_prime n = true ↔ (2 ≤ n ∧ ∀ d, 1 < d → d < n → ¬ d ∣ n)) ∧
    (n ≤ 1 → is_prime n = false) ∧
    (n = 2 ∨ n = 3 → is_prime n = true) ∧
    ((2 ∣ n ∨ 3 ∣ n) → n ≠ 2 → n ≠ 3 → is_prime n = false) := by
  refine ⟨is_prime_iff n, ?_, ?_, ?_⟩
  · intro h
    cases hp : is_prime n with
    | false => rfl
    | true =>
      have := (is_prime_iff n).mp hp
      omega
  · rintro (rfl | rfl)
    · exact (is_prime_iff 2).mpr ⟨by omega, by omega⟩
    · exact (is_prime_iff 3).mpr ⟨by omega, fun d h1 h2 => by interval_cases d <;> omega⟩
  · intro hdvd hn2 hn3
    cases hp : is_prime n with
    | false => rfl
    | true =>
      exfalso
      obtain ⟨hge, hnd⟩ := (is_prime_iff n).mp hp
      rcases hdvd with h | h
      · rcases h with ⟨k, rfl⟩
        exact hnd 2 (by omega) (by omega) ⟨k, rfl⟩
      · rcases h with ⟨k, rfl⟩
        exact hnd 3 (by omega) (by omega) ⟨k, rfl⟩

/-- Witness for C1 at a concrete input. -/
theorem oracle_trial_division_correct_witness :
    is_prime 97 = true ∧ is_prime 99 = false := by
  constructor
  · have h : ∀ d, d < 97 → 1 < d → ¬ d ∣ 97 := by decide
    exact (oracle_trial_division_correct 97).1.mpr
      ⟨by omega, fun d h1 h2 hd => h d h2 h1 hd⟩
  · exact (oracle_trial_division_correct 99).2.2.2 (Or.inr (by decide))
      (by decide) (by decide)

/-- Upward scan invariant: starting from a strictly increasing accumulator all
of whose entries lie below the cursor, the accumulator stays strictly
increasing and every new entry is at or above the cursor. -/
lemma scanLoop_up_inv (check : Nat → Bool) (count : Nat) :
    ∀ current result,
      List.Pairwise (· < ·) result → (∀ x ∈ result, x < current) →
      List.Pairwise (· < ·) (scanLoop check count true current result) ∧
      ∀ p ∈ scanLoop check count true current result, p ∈ result ∨ current ≤ p := by
  refine scanLoop.induct check count true
    (fun current result =>
      List.Pairwise (· < ·) result → (∀ x ∈ result, x < current) →
      List.Pairwise (· < ·) (scanLoop check count true current result) ∧
      ∀ p ∈ scanLoop check count true current result, p ∈ result ∨ current ≤ p)
    ?_ ?_
  · intro current result hguard ih hpw hlt
    rw [scanLoop, dif_pos hguard]
    try simp only [reduceIte]
    try simp only [reduceDIte] at ih
    by_cases hc : check current = true
    · rw [if_pos hc]
      rw [dif_pos hc] at ih
      have hpw' : List.Pairwise (· < ·) (result ++ [current]) := by
        rw [List.pairwise_append]
        exact ⟨hpw, List.pairwise_singleton _ _, fun a ha b hb => by
          simp at hb
          subst hb
          exact hlt a ha⟩
      have hlt' : ∀ x ∈ result ++ [current], x < current + 1 := by
        intro x hx
        rcases List.mem_append.mp hx with hx | hx
        · exact Nat.lt_succ_of_lt (hlt x hx)
        · simp at hx
          omega
      obtain ⟨h1, h2⟩ := ih hpw' hlt'
      refine ⟨h1, fun p hp => ?_⟩
      rcases h2 p hp with hp' | hp'
      · rcases List.mem_append.mp hp' with h | h
        · exact Or.inl h
        · simp at h
          omega
      · omega
    · rw [if_neg hc]
      rw [dif_neg hc] at ih
      have hlt' : ∀ x ∈ result, x < current + 1 := fun x hx =>
        Nat.lt_succ_of_lt (hlt x hx)
      obtain ⟨h1, h2⟩ := ih hpw hlt'
      refine ⟨h1, fun p hp => ?_⟩
      rcases h2 p hp with hp' | hp'
      · exact Or.inl hp'
      · omega
  · intro current result hguard hpw hlt
    rw [scanLoop, dif_neg hguard]
    exact ⟨hpw, fun p hp => Or.inl hp⟩

/-- Downward scan invariant: starting from a strictly decreasing accumulator
all of whose entries lie above the cursor, the accumulator stays strictly
decreasing and every new entry is at or below the cursor. -/
lemma scanLoop_down_inv (check : Nat → Bool) (count : Nat) :
    ∀ current result,
      List.Pairwise (· > ·) result → (∀ x ∈ result, current < x) →
      List.Pairwise (· > ·) (scanLoop check count false current result) ∧
      ∀ p ∈ scanLoop check count false current result, p ∈ result ∨ p ≤ current := by
  refine scanLoop.induct check count false
    (fun current result =>
      List.Pairwise (· > ·) result → (∀ x ∈ result, current < x) →
      List.Pairwise (· > ·) (scanLoop check count false current result) ∧
      ∀ p ∈ scanLoop check count false current result, p ∈ result ∨ p ≤ current)
    ?_ ?_
  · intro current result hguard ih hpw hgt
    rw [scanLoop, dif_pos hguard]
    try simp only [reduceIte]
    have hred : dite (false = true) (fun _ => current + 1) (fun _ => current - 1) = current - 1 := rfl
    rw [hred] at ih
    obtain ⟨-, hcur, -⟩ := hguard
    by_cases hc : check current = true
    · rw [if_pos hc]
      rw [dif_pos hc] at ih
      have hpw' : List.Pairwise (· > ·) (result ++ [current]) := by
        rw [List.pairwise_append]
        exact ⟨hpw, List.pairwise_singleton _ _, fun a ha b hb => by
          simp at hb
          subst hb
          exact hgt a ha⟩
      have hgt' : ∀ x ∈ result ++ [current], current - 1 < x := by
        intro x hx
        rcases List.mem_append.mp hx with hx | hx
        · have := hgt x hx
          omega
        · simp at hx
          omega
      obtain ⟨h1, h2⟩ := ih hpw' hgt'
      refine ⟨h1, fun p hp => ?_⟩
      rcases h2 p hp with hp' | hp'
      · rcases List.mem_append.mp hp' with h | h
        · exact Or.inl h
        · simp at h
          omega
      · omega
    · rw [if_neg hc]
      rw [dif_neg hc] at ih
      have hgt' : ∀ x ∈ result, current - 1 < x := by
        intro x hx
        have := hgt x hx
        omega
      obtain ⟨h1, h2⟩ := ih hpw hgt'
      refine ⟨h1, fun p hp => ?_⟩
      rcases h2 p hp with hp' | hp'
      · exact Or.inl hp'
      · omega
  · intro current result hguard hpw hgt
    rw [scanLoop, dif_neg hguard]
    exact ⟨hpw, fun p hp => Or.inl hp⟩

/-- The scan never drops entries already collected. -/
lemma scanLoop_mem_mono (check : Nat → Bool) (count : Nat) (up : Bool) :
    ∀ current result, ∀ x ∈ result, x ∈ scanLoop check count up current result := by
  refine scanLoop.induct check count up
    (fun current result => ∀ x ∈ result, x ∈ scanLoop check count up current result)
    ?_ ?_
  · intro current result hguard ih x hx
    rw [scanLoop, dif_pos hguard]
    simp only [dite_eq_ite] at ih
    by_cases hc : check current = true
    · rw [if_pos hc] at ih ⊢
      exact ih x (List.mem_append.mpr (Or.inl hx))
    · rw [if_neg hc] at ih ⊢
      exact ih x hx
  · intro current result hguard x hx
    rw [scanLoop, dif_neg hguard]
    exact hx

/-- Unfolding of the Scanner at direction `'larger'`: cursor starts at
`number + 1` and steps upward. -/
lemma find_primes_near_some_larger (data : List Nat) (n count : Nat) :
    find_primes_near (some data) n count "larger" =
      scanLoop (fun m => is_prime_primesdb (some data) m) count true (n + 1) [] := rfl

/-- Unfolding of the Scanner at direction `'smaller'`: cursor starts at
`number - 1` and steps downward. -/
lemma find_primes_near_some_smaller (data : List Nat) (n count : Nat) :
    find_primes_near (some data) n count "smaller" =
      scanLoop (fun m => is_prime_primesdb (some data) m) count false (n - 1) [] := rfl

/-- A downward scan started at cursor 0 (the case `number = 0`) is empty. -/
lemma scanLoop_zero (check : Nat → Bool) (count : Nat) (up : Bool)
    (result : List Nat) : scanLoop check count up 0 result = result := by
  rw [scanLoop, dif_neg (by omega)]

/-- The upward scan yields a strictly increasing list of values strictly
above the start. -/
lemma find_primes_near_larger_spec (buffer : Option (List Nat)) (n count : Nat) :
    List.Pairwise (· < ·) (find_primes_near buffer n count "larger") ∧
    ∀ p ∈ find_primes_near buffer n count "larger", n < p := by
  cases buffer with
  | none => simp [find_primes_near]
  | some data =>
    rw [find_primes_near_some_larger]
    have hU := scanLoop_up_inv (fun m => is_prime_primesdb (some data) m) count
      (n + 1) [] List.Pairwise.nil (by simp)
    refine ⟨hU.1, fun p hp => ?_⟩
    rcases hU.2 p hp with h | h
    · simp at h
    · omega

/-- The downward scan yields a strictly decreasing list of values strictly
below the start. -/
lemma find_primes_near_smaller_spec (buffer : Option (List Nat)) (n count : Nat) :
    List.Pairwise (· > ·) (find_primes_near buffer n count "smaller") ∧
    ∀ p ∈ find_primes_near buffer n count "smaller", p < n := by
  cases buffer with
  | none => simp [find_primes_near]
  | some data =>
    rw [find_primes_near_some_smaller]
    by_cases hn : n = 0
    · subst hn
      rw [scanLoop_zero]
      simp
    · have hD := scanLoop_down_inv (fun m => is_prime_primesdb (some data) m) count
        (n - 1) [] List.Pairwise.nil (by simp)
      refine ⟨hD.1, fun p hp => ?_⟩
      rcases hD.2 p hp with h | h
      · simp at h
      · omega

/-- C4: for every start `n` and count `k ≥ 1`, every prime returned by the
upward scan (direction 'larger') is strictly greater than `n`, every prime
returned by the downward scan (direction 'smaller') is strictly less than
`n`, and the start value `n` itself is never included in either result, even
if `n` is prime. -/
theorem scan_direction_strict (buffer : Option (List Nat)) (n count : Nat)
    (hk : 1 ≤ count) :
    (∀ p ∈ find_primes_near buffer n count "larger", n < p) ∧
    (∀ p ∈ find_primes_near buffer n count "smaller", p < n) ∧
    n ∉ find_primes_near buffer n count "larger" ∧
    n ∉ find_primes_near buffer n count "smaller" := by
  obtain ⟨-, hL⟩ := find_primes_near_larger_spec buffer n count
  obtain ⟨-, hS⟩ := find_primes_near_smaller_spec buffer n count
  exact ⟨hL, hS, fun hmem => absurd (hL n hmem) (by omega),
    fun hmem => absurd (hS n hmem) (by omega)⟩

/-- Witness for C4 at a concrete input. -/
theorem scan_direction_strict_witness :
    (1 ≤ 1) ∧ 10 ∉ find_primes_near (some []) 10 1 "larger" := by
  exact ⟨by omega, (scan_direction_strict (some []) 10 1 (by omega)).2.2.1⟩

/-- For every cursor and accumulator some finite fuel makes the fuel-indexed
loop reach the same exit the real loop reaches. -/
lemma scanLoopFuel_exists (check : Nat → Bool) (count : Nat) (up : Bool) :
    ∀ current result, ∃ fuel,
      scanLoopFuel check count up fuel current result =
        some (scanLoop check count up current result) := by
  refine scanLoop.induct check count up
    (fun current result => ∃ fuel,
      scanLoopFuel check count up fuel current result =
        some (scanLoop check count up current result))
    ?_ ?_
  · intro current result hguard ih
    simp only [dite_eq_ite] at ih
    obtain ⟨f, hf⟩ := ih
    refine ⟨f + 1, ?_⟩
    rw [scanLoop, dif_pos hguard]
    rw [scanLoopFuel, if_pos hguard]
    exact hf
  · intro current result hguard
    refine ⟨0, ?_⟩
    rw [scanLoop, dif_neg hguard]
    rw [scanLoopFuel, if_neg hguard]

/-- C8: for every start value, count and direction the scanner loop
terminates — some finite fuel suffices for the fuel-indexed copy of the loop
(which steps the cursor by +1 or -1 each iteration and exits as soon as the
requested number of primes is collected or the cursor is at 1 or below or at
10^10 or above) to return the scan's value instead of running out. -/
theorem scanner_terminates (buffer : Option (List Nat)) (n count : Nat)
    (direction : String) :
    ∃ fuel, find_primes_near_fuel buffer n count direction fuel =
      some (find_primes_near buffer n count direction) := by
  cases buffer with
  | none => exact ⟨0, rfl⟩
  | some data =>
    obtain ⟨f, hf⟩ := scanLoopFuel_exists
      (fun m => is_prime_primesdb (some data) m) count (direction == "larger")
      (if direction == "smaller" then n - 1 else n + 1) []
    exact ⟨f, hf⟩

/-- The Oracle returns `true` exactly on Mathlib primes (restated as helper
equalities for rewriting). -/
lemma is_prime_true_of_prime {n : Nat} (h : Nat.Prime n) : is_prime n = true :=
  (is_prime_iff_prime n).mpr h

lemma is_prime_false_of_not_prime {n : Nat} (h : ¬ Nat.Prime n) :
    is_prime n = false := by
  cases hp : is_prime n with
  | false => rfl
  | true => exact absurd ((is_prime_iff_prime n).mp hp) h

/-- Every fast-path branch of `is_prime_primesdb` returns exactly what the
Oracle returns, so the whole function agrees with the Oracle whenever the
byte address is out of range of the loaded buffer. -/
lemma is_prime_primesdb_out_of_range (data : List Nat) (n : Nat)
    (h : pdbAddress n < 0 ∨ (data.length : Int) ≤ pdbAddress n) :
    is_prime_primesdb (some data) n = is_prime n := by
  show (if n < 2 then false
    else if n = 2 ∨ n = 3 ∨ n = 5 ∨ n = 7 then true
    else if n % 2 = 0 ∨ n % 3 = 0 ∨ n % 5 = 0 then false
    else if n % 10 ∈ ([1, 3, 7, 9] : List Nat) then
      if pdbAddress n < 0 ∨ (data.length : Int) ≤ pdbAddress n then is_prime n
      else ((data.getD (pdbAddress n).toNat 0 >>> pdbBitPos n) &&& 1) == 1
    else false) = is_prime n
  by_cases hlt : n < 2
  · rw [if_pos hlt]
    symm
    apply is_prime_false_of_not_prime
    intro hp
    exact absurd hp.two_le (by omega)
  · rw [if_neg hlt]
    by_cases h4 : n = 2 ∨ n = 3 ∨ n = 5 ∨ n = 7
    · rw [if_pos h4]
      symm
      rcases h4 with rfl | rfl | rfl | rfl <;>
        exact is_prime_true_of_prime (by norm_num)
    · rw [if_neg h4]
      by_cases h235 : n % 2 = 0 ∨ n % 3 = 0 ∨ n % 5 = 0
      · rw [if_pos h235]
        symm
        apply is_prime_false_of_not_prime
        intro hp
        rcases h235 with hm | hm | hm
        · rcases (Nat.Prime.eq_one_or_self_of_dvd hp 2
            (Nat.dvd_of_mod_eq_zero hm)) with h' | h' <;> omega
        · rcases (Nat.Prime.eq_one_or_self_of_dvd hp 3
            (Nat.dvd_of_mod_eq_zero hm)) with h' | h' <;> omega
        · rcases (Nat.Prime.eq_one_or_self_of_dvd hp 5
            (Nat.dvd_of_mod_eq_zero hm)) with h' | h' <;> omega
      · rw [if_neg h235]
        push_neg at h235
        have hdigit : n % 10 ∈ ([1, 3, 7, 9] : List Nat) := by
          obtain ⟨h2, h3, h5⟩ := h235
          simp only [List.mem_cons, List.not_mem_nil, or_false]
          omega
        rw [if_pos hdigit, if_pos h]

/-- C6: for every `n` whose derived byte address is negative or at least the
loaded buffer's length, the combined primality check returns exactly the
Oracle's result `is_prime(n)`: out-of-range index lookups fall back to trial
division rather than erring or guessing. -/
theorem out_of_range_lookup_falls_back (data : List Nat) (n : Nat)
    (h : pdbAddress n < 0 ∨ (data.length : Int) ≤ pdbAddress n) :
    is_prime_primesdb (some data) n = is_prime n :=
  is_prime_primesdb_out_of_range data n h

/-- Witness for C6 at a concrete input: the empty buffer puts every address
out of range. -/
theorem out_of_range_lookup_falls_back_witness :
    (pdbAddress 11 < 0 ∨ (([] : List Nat).length : Int) ≤ pdbAddress 11) ∧
    is_prime_primesdb (some []) 11 = is_prime 11 :=
  ⟨Or.inr (by decide), out_of_range_lookup_falls_back [] 11 (Or.inr (by decide))⟩

/-- C5: for every `n` surviving the fast-path filters, the packed-index
lookup reads the byte at address `floor((n div 10)/2 + 0.5) - 1` and tests
the bit whose position is the index of `n`'s last digit in (1,3,7,9), offset
by +4 exactly when the decade `n div 10` is even (this is what `pdbBitPos`
computes), declaring `n` prime iff that bit is 1; for `n = 31` the address is
1 and the bit position is 0 with no offset. -/
theorem packed_index_lookup_formula (data : List Nat) (n : Nat)
    (hs : survives_fast_path n)
    (h0 : 0 ≤ pdbAddress n) (hlen : pdbAddress n < (data.length : Int)) :
    (is_prime_primesdb (some data) n = true ↔
      (data.getD (pdbAddress n).toNat 0 >>> pdbBitPos n) % 2 = 1) ∧
    (∀ m : Nat, pdbAddress m = ⌊((m / 10 : Nat) : ℚ) / 2 + 1 / 2⌋ - 1) ∧
    pdbAddress 31 = 1 ∧ pdbBitPos 31 = 0 := by
  obtain ⟨hge, hn2, hn3, hn5, hn7, hd2, hd3, hd5, hdigit⟩ := hs
  refine ⟨?_, ?_, by decide, by decide⟩
  · show (if n < 2 then false
      else if n = 2 ∨ n = 3 ∨ n = 5 ∨ n = 7 then true
      else if n % 2 = 0 ∨ n % 3 = 0 ∨ n % 5 = 0 then false
      else if n % 10 ∈ ([1, 3, 7, 9] : List Nat) then
        if pdbAddress n < 0 ∨ (data.length : Int) ≤ pdbAddress n then is_prime n
        else ((data.getD (pdbAddress n).toNat 0 >>> pdbBitPos n) &&& 1) == 1
      else false) = true ↔
      (data.getD (pdbAddress n).toNat 0 >>> pdbBitPos n) % 2 = 1
    rw [if_neg (by omega), if_neg (by tauto),
      if_neg (by
        rintro (hm | hm | hm)
        · exact hd2 (Nat.dvd_of_mod_eq_zero hm)
        · exact hd3 (Nat.dvd_of_mod_eq_zero hm)
        · exact hd5 (Nat.dvd_of_mod_eq_zero hm)),
      if_pos hdigit, if_neg (by omega)]
    rw [Nat.and_one_is_mod]
    simp [beq_iff_eq]
  · intro m
    unfold pdbAddress
    have hcast : ((m / 10 : Nat) : ℚ) / 2 + 1 / 2 = ((m / 10 + 1 : Nat) : ℚ) / 2 := by
      push_cast
      ring
    rw [hcast, show ((2 : ℚ)) = ((2 : Nat) : ℚ) from by norm_num,
      Rat.floor_natCast_div_natCast]
    omega

/-- Witness for C5 at a concrete input: `n = 31` against a two-byte buffer
whose byte at address 1 has bit 0 set. -/
theorem packed_index_lookup_formula_witness :
    survives_fast_path 31 ∧ (0 ≤ pdbAddress 31 ∧ pdbAddress 31 < (([0, 1] : List Nat).length : Int)) ∧
    (is_prime_primesdb (some [0, 1]) 31 = true ↔
      (([0, 1] : List Nat).getD (pdbAddress 31).toNat 0 >>> pdbBitPos 31) % 2 = 1) := by
  refine ⟨by decide, ⟨by decide, by decide⟩, ?_⟩
  exact (packed_index_lookup_formula [0, 1] 31 (by decide) (by decide) (by decide)).1

/-- C2 (code bug): with the index buffer unavailable (no data loaded and
loading fails, modelled by `buffer = none`), `find_primes_near` returns `[]`
(lines 102-105) instead of transparently falling back to the Oracle as the
spec requires and as the code's own comment ("fall back to the traditional
method") announces: the Oracle-backed scan required by the spec returns `[5]`
for start 4, count 1, direction 'larger'. -/
theorem scanner_empty_when_index_unavailable :
    find_primes_near none 4 1 "larger" = [] ∧
    find_primes_near_spec none 4 1 "larger" = [5] := by
  constructor
  · rfl
  · show scanLoop (fun m => is_prime_primesdb none m) 1 true 5 [] = [5]
    have hc : is_prime_primesdb none 5 = true := is_prime_true_of_prime (by norm_num)
    rw [scanLoop, dif_pos (by norm_num)]
    simp only [hc, eq_self_iff_true, if_true, List.nil_append]
    rw [scanLoop, dif_neg (by simp)]

/-- Counterexample to C9 as stated: at `number = 2`, `count = 1` and the
unrecognised direction `"other"` (with a loaded empty buffer), the scan finds
the prime 3 at cursor `number + 1` first, exhausts the requested count and
stops, so the prime start value 2 is not included. -/
theorem scanner_other_direction_counterexample :
    is_prime 2 = true ∧
    find_primes_near (some []) 2 1 "other" = [3] ∧
    2 ∉ find_primes_near (some []) 2 1 "other" := by
  have h2 : is_prime 2 = true := is_prime_true_of_prime (by norm_num)
  have heq : find_primes_near (some []) 2 1 "other" =
      scanLoop (fun m => is_prime_primesdb (some []) m) 1 false 3 [] := rfl
  have hc3 : is_prime_primesdb (some []) 3 = true := by decide
  have hscan : scanLoop (fun m => is_prime_primesdb (some []) m) 1 false 3 [] = [3] := by
    rw [scanLoop, dif_pos (by norm_num)]
    simp only [hc3, eq_self_iff_true, if_true, Bool.false_eq_true, if_false,
      List.nil_append]
    rw [scanLoop, dif_neg (by simp)]
  rw [heq, hscan]
  exact ⟨h2, rfl, by simp⟩

/-- C9 (amended): for every direction other than 'smaller' and 'larger',
`find_primes_near` initialises its cursor to `number + 1` but steps by -1, so
it scans downward starting one above the query value; consequently, whenever
the buffer is loaded, the scan's own primality check accepts `number`,
`number + 1` is below the 10^10 bound, the count is at least 1, and the scan
is not already complete after testing `number + 1` (count at least 2, or
`number + 1` rejected by the check), the start value `number` itself is
included in the result — violating the never-include-start behaviour the two
documented directions have. -/
theorem scanner_other_direction_amended (data : List Nat) (number count : Nat)
    (direction : String)
    (hds : direction ≠ "smaller") (hdl : direction ≠ "larger")
    (hp : is_prime_primesdb (some data) number = true)
    (hb : number + 1 < 10 ^ 10)
    (hcount : 1 ≤ count)
    (hroom : 2 ≤ count ∨ is_prime_primesdb (some data) (number + 1) = false) :
    find_primes_near (some data) number count direction =
      scanLoop (fun m => is_prime_primesdb (some data) m) count false
        (number + 1) [] ∧
    number ∈ find_primes_near (some data) number count direction := by
  have hbs : (direction == "smaller") = false := beq_eq_false_iff_ne.mpr hds
  have hbl : (direction == "larger") = false := beq_eq_false_iff_ne.mpr hdl
  have heq : find_primes_near (some data) number count direction =
      scanLoop (fun m => is_prime_primesdb (some data) m) count false
        (number + 1) [] := by
    show scanLoop (fun m => is_prime_primesdb (some data) m) count
        (direction == "larger")
        (if direction == "smaller" then number - 1 else number + 1) [] = _
    rw [hbs, hbl]
    simp only [Bool.false_eq_true, if_false]
  have hge : 2 ≤ number := by
    by_contra hlt
    push_neg at hlt
    have hoor : pdbAddress number < 0 := by
      unfold pdbAddress
      interval_cases number <;> decide
    have hfb := is_prime_primesdb_out_of_range data number (Or.inl hoor)
    rw [hfb] at hp
    have := (is_prime_iff number).mp hp
    omega
  refine ⟨heq, ?_⟩
  rw [heq]
  rw [scanLoop, dif_pos ⟨by simpa using hcount, by omega, hb⟩]
  simp only [Bool.false_eq_true, if_false, Nat.add_sub_cancel]
  by_cases hc1 : is_prime_primesdb (some data) (number + 1) = true
  · have hcount2 : 2 ≤ count := by
      rcases hroom with h | h
      · exact h
      · rw [hc1] at h
        exact absurd h (by simp)
    simp only [hc1, eq_self_iff_true, if_true, List.nil_append]
    rw [scanLoop, dif_pos ⟨by simp only [List.length_singleton]; omega, by omega,
      by omega⟩]
    simp only [hp, eq_self_iff_true, if_true, Bool.false_eq_true, if_false,
      Nat.add_sub_cancel]
    exact scanLoop_mem_mono _ count false (number - 1) ([number + 1] ++ [number])
      number (by simp)
  · have hc1' : is_prime_primesdb (some data) (number + 1) = false := by
      simpa using hc1
    simp only [hc1', Bool.false_eq_true, if_false]
    rw [scanLoop, dif_pos ⟨by simpa using hcount, by omega, by omega⟩]
    simp only [hp, eq_self_iff_true, if_true, Bool.false_eq_true, if_false,
      Nat.add_sub_cancel, List.nil_append]
    exact scanLoop_mem_mono _ count false (number - 1) [number] number (by simp)

/-- Witness for the amended C9 at a concrete input. -/
theorem scanner_other_direction_amended_witness :
    ("near" ≠ "smaller" ∧ "near" ≠ "larger" ∧
      is_prime_primesdb (some []) 7 = true ∧ 7 + 1 < 10 ^ 10 ∧ 1 ≤ 2 ∧ 2 ≤ 2) ∧
    7 ∈ find_primes_near (some []) 7 2 "near" := by
  refine ⟨⟨by decide, by decide, by decide, by norm_num, by omega, by omega⟩, ?_⟩
  exact (scanner_other_direction_amended [] 7 2 "near" (by decide) (by decide)
    (by decide) (by norm_num) (by omega) (Or.inl (by omega))).2

/-- Unfolding of the Aggregator: upward pairs, then downward pairs, stably
sorted by distance, truncated to `count`. -/
lemma find_closest_primes_def (buffer : Option (List Nat)) (n k : Nat) :
    find_closest_primes buffer n k =
      (((find_primes_near buffer n k "larger").map (fun p => (p, p - n)) ++
        (find_primes_near buffer n k "smaller").map (fun p => (p, n - p))).mergeSort
          (fun a b => decide (a.2 ≤ b.2))).take k := rfl

/-- The distance comparison used by the Aggregator's sort is transitive. -/
lemma distLE_trans (a b c : Nat × Nat) :
    decide (a.2 ≤ b.2) = true → decide (b.2 ≤ c.2) = true →
      decide (a.2 ≤ c.2) = true := by
  simp only [decide_eq_true_eq]
  omega

/-- The distance comparison used by the Aggregator's sort is total. -/
lemma distLE_total (a b : Nat × Nat) :
    (decide (a.2 ≤ b.2) || decide (b.2 ≤ a.2)) = true := by
  simp only [Bool.or_eq_true, decide_eq_true_eq]
  omega

/-- C3: for every `n ≥ 0` and count `k ≥ 1`, `find_closest_primes(n, k)`
returns at most `k` entries, each entry's distance equals the absolute
difference between its prime and `n` (hence is non-negative), and the entries
are sorted non-decreasing by distance. -/
theorem closest_primes_shape (buffer : Option (List Nat)) (n k : Nat)
    (hk : 1 ≤ k) :
    (find_closest_primes buffer n k).length ≤ k ∧
    (∀ e ∈ find_closest_primes buffer n k,
      (e.2 : Int) = |(e.1 : Int) - (n : Int)|) ∧
    List.Pairwise (fun a b : Nat × Nat => a.2 ≤ b.2)
      (find_closest_primes buffer n k) := by
  obtain ⟨-, hL⟩ := find_primes_near_larger_spec buffer n k
  obtain ⟨-, hS⟩ := find_primes_near_smaller_spec buffer n k
  rw [find_closest_primes_def]
  refine ⟨?_, ?_, ?_⟩
  · exact List.length_take_le k _
  · intro e he
    have he2 := List.mem_of_mem_take he
    rw [List.mem_mergeSort] at he2
    rcases List.mem_append.mp he2 with h | h
    · obtain ⟨p, hp, rfl⟩ := List.mem_map.mp h
      have := hL p hp
      rw [abs_of_nonneg (by omega)]
      omega
    · obtain ⟨p, hp, rfl⟩ := List.mem_map.mp h
      have := hS p hp
      rw [abs_of_nonpos (by omega)]
      omega
  · have hs := List.sorted_mergeSort distLE_trans distLE_total
      ((find_primes_near buffer n k "larger").map (fun p => (p, p - n)) ++
        (find_primes_near buffer n k "smaller").map (fun p => (p, n - p)))
    have hs' : List.Pairwise (fun a b : Nat × Nat => a.2 ≤ b.2)
        (((find_primes_near buffer n k "larger").map (fun p => (p, p - n)) ++
          (find_primes_near buffer n k "smaller").map (fun p => (p, n - p))).mergeSort
            (fun a b => decide (a.2 ≤ b.2))) :=
      hs.imp (fun h => by simpa using h)
    exact hs'.sublist (List.take_sublist _ _)

/-- Witness for C3 at a concrete input. -/
theorem closest_primes_shape_witness :
    (1 : Nat) ≤ 1 ∧
    ((find_closest_primes none 5 1).length ≤ 1 ∧
    (∀ e ∈ find_closest_primes none 5 1,
      (e.2 : Int) = |(e.1 : Int) - (5 : Int)|) ∧
    List.Pairwise (fun a b : Nat × Nat => a.2 ≤ b.2)
      (find_closest_primes none 5 1)) :=
  ⟨by omega, closest_primes_shape none 5 1 (by omega)⟩

/-- In a duplicate-free list, a two-element sublist pins the relative order
of the positions of its two elements. -/
lemma pair_sublist_get_lt {α : Type _} {a b : α} :
    ∀ (l : List α), List.Sublist [a, b] l → l.Nodup →
      ∀ (i j : Nat) (hi : i < l.length) (hj : j < l.length),
        l.get ⟨i, hi⟩ = a → l.get ⟨j, hj⟩ = b → i < j := by
  intro l
  induction l with
  | nil =>
    intro hsub
    simp at hsub
  | cons c t ih =>
    intro hsub hnd i j hi hj hga hgb
    obtain ⟨hcnot, hndt⟩ := List.nodup_cons.mp hnd
    cases hsub with
    | cons w h' =>
      have hat : a ∈ t := h'.subset (by simp)
      have hbt : b ∈ t := h'.subset (by simp)
      cases i with
      | zero =>
        have hca : c = a := by simpa using hga
        exact absurd (hca ▸ hat) hcnot
      | succ il =>
        cases j with
        | zero =>
          have hcb : c = b := by simpa using hgb
          exact absurd (hcb ▸ hbt) hcnot
        | succ jl =>
          have hil : il < t.length := by simpa using hi
          have hjl : jl < t.length := by simpa using hj
          have := ih h' hndt il jl hil hjl (by simpa using hga) (by simpa using hgb)
          omega
    | cons₂ w h' =>
      have hbt : b ∈ t := h'.subset (by simp)
      cases j with
      | zero =>
        have hcb : a = b := by simpa using hgb
        exact absurd (hcb ▸ hbt) hcnot
      | succ jl =>
        cases i with
        | zero => omega
        | succ il =>
          have hil : il < t.length := by simpa using hi
          have hga' : t.get ⟨il, hil⟩ = a := by simpa using hga
          have : a ∈ t := by
            rw [← hga']
            exact List.get_mem t il hil
          exact absurd this hcnot

/-- C7: in the output of `find_closest_primes(n, k)`, whenever an upward
prime (above `n`) and a downward prime (below `n`) lie at equal distance
from `n`, the upward prime appears before the downward prime: upward entries
are inserted into the candidate list before downward entries and the sort by
distance is stable, preserving that insertion order among ties.  Formally,
if entry `v` with prime below `n` sits at index `i` and entry `u` with prime
above `n` sits at index `j` with the same distance, then `j < i`. -/
theorem closest_primes_ties_up_before_down (buffer : Option (List Nat))
    (n k i j : Nat) (u v : Nat × Nat)
    (hvi : (find_closest_primes buffer n k)[i]? = some v)
    (huj : (find_closest_primes buffer n k)[j]? = some u)
    (hd : v.2 = u.2) (hdown : v.1 < n) (hup : n < u.1) :
    j < i := by
  obtain ⟨hLpw, hL⟩ := find_primes_near_larger_spec buffer n k
  obtain ⟨hSpw, hS⟩ := find_primes_near_smaller_spec buffer n k
  rw [find_closest_primes_def] at hvi huj
  -- the untruncated stable sort
  have hik : i < k := by
    obtain ⟨hi, -⟩ := List.getElem?_eq_some_iff.mp hvi
    exact lt_of_lt_of_le hi (List.length_take_le k _)
  have hjk : j < k := by
    obtain ⟨hj, -⟩ := List.getElem?_eq_some_iff.mp huj
    exact lt_of_lt_of_le hj (List.length_take_le k _)
  rw [List.getElem?_take_of_lt hik] at hvi
  rw [List.getElem?_take_of_lt hjk] at huj
  obtain ⟨hi', hival⟩ := List.getElem?_eq_some_iff.mp hvi
  obtain ⟨hj', hjval⟩ := List.getElem?_eq_some_iff.mp huj
  have hvW : v ∈ ((find_primes_near buffer n k "larger").map (fun p => (p, p - n)) ++
      (find_primes_near buffer n k "smaller").map (fun p => (p, n - p))).mergeSort
        (fun a b => decide (a.2 ≤ b.2)) := hival ▸ List.getElem_mem hi'
  have huW : u ∈ ((find_primes_near buffer n k "larger").map (fun p => (p, p - n)) ++
      (find_primes_near buffer n k "smaller").map (fun p => (p, n - p))).mergeSort
        (fun a b => decide (a.2 ≤ b.2)) := hjval ▸ List.getElem_mem hj'
  rw [List.mem_mergeSort] at hvW huW
  -- the downward entry comes from the downward scan, the upward entry from
  -- the upward scan
  have hvS : v ∈ (find_primes_near buffer n k "smaller").map (fun p => (p, n - p)) := by
    rcases List.mem_append.mp hvW with h | h
    · obtain ⟨p, hp, rfl⟩ := List.mem_map.mp h
      exact absurd (hL p hp) (by omega)
    · exact h
  have huL : u ∈ (find_primes_near buffer n k "larger").map (fun p => (p, p - n)) := by
    rcases List.mem_append.mp huW with h | h
    · exact h
    · obtain ⟨p, hp, rfl⟩ := List.mem_map.mp h
      exact absurd (hS p hp) (by omega)
  -- the pair (u, v) is a sublist of the candidate list, in this order
  have hsubP : List.Sublist [u, v]
      ((find_primes_near buffer n k "larger").map (fun p => (p, p - n)) ++
        (find_primes_near buffer n k "smaller").map (fun p => (p, n - p))) :=
    List.Sublist.append (List.singleton_sublist.mpr huL)
      (List.singleton_sublist.mpr hvS)
  -- stability carries the pair into the sorted list
  have hle : decide (u.2 ≤ v.2) = true := decide_eq_true (le_of_eq hd.symm)
  have hsubW : List.Sublist [u, v]
      (((find_primes_near buffer n k "larger").map (fun p => (p, p - n)) ++
        (find_primes_near buffer n k "smaller").map (fun p => (p, n - p))).mergeSort
          (fun a b => decide (a.2 ≤ b.2))) :=
    List.pair_sublist_mergeSort distLE_trans distLE_total hle hsubP
  -- the sorted list has no duplicates
  have hndL : ((find_primes_near buffer n k "larger").map
      (fun p => (p, p - n))).Nodup :=
    List.Nodup.map (fun p q hpq => by simpa using congrArg Prod.fst hpq)
      (hLpw.imp (fun h => Nat.ne_of_lt h))
  have hndS : ((find_primes_near buffer n k "smaller").map
      (fun p => (p, n - p))).Nodup :=
    List.Nodup.map (fun p q hpq => by simpa using congrArg Prod.fst hpq)
      (hSpw.imp (fun h => Nat.ne_of_gt h))
  have hdisj : List.Disjoint
      ((find_primes_near buffer n k "larger").map (fun p => (p, p - n)))
      ((find_primes_near buffer n k "smaller").map (fun p => (p, n - p))) := by
    intro x hx1 hx2
    obtain ⟨p, hp, rfl⟩ := List.mem_map.mp hx1
    obtain ⟨q, hq, he⟩ := List.mem_map.mp hx2
    have h1 := hL p hp
    have h2 := hS q hq
    have : q = p := by simpa using congrArg Prod.fst he
    omega
  have hndW : (((find_primes_near buffer n k "larger").map (fun p => (p, p - n)) ++
      (find_primes_near buffer n k "smaller").map (fun p => (p, n - p))).mergeSort
        (fun a b => decide (a.2 ≤ b.2))).Nodup :=
    (List.Perm.nodup_iff (List.mergeSort_perm _ _)).mpr
      (List.nodup_append.mpr ⟨hndL, hndS, hdisj⟩)
  -- order of positions in the sorted list
  exact pair_sublist_get_lt _ hsubW hndW j i hj' hi'
    (by simp only [List.get_eq_getElem]; exact hjval)
    (by simp only [List.get_eq_getElem]; exact hival)

/-- Witness for C7 at a concrete input: around 4 the primes 3 and 5 tie at
distance 1, and the upward entry (5, 1) precedes the downward entry (3, 1). -/
theorem closest_primes_ties_up_before_down_witness :
    find_closest_primes (some []) 4 2 = [(5, 1), (3, 1)] ∧ (0 : Nat) < 1 := by
  have h5 : is_prime_primesdb (some []) 5 = true := by decide
  have h6 : is_prime_primesdb (some []) 6 = false := by decide
  have h7 : is_prime_primesdb (some []) 7 = true := by decide
  have h3 : is_prime_primesdb (some []) 3 = true := by decide
  have h2 : is_prime_primesdb (some []) 2 = true := by decide
  have hL : find_primes_near (some []) 4 2 "larger" = [5, 7] := by
    rw [find_primes_near_some_larger]
    rw [scanLoop, dif_pos (by norm_num)]
    norm_num [h5]
    rw [scanLoop, dif_pos (by norm_num)]
    norm_num [h6]
    rw [scanLoop, dif_pos (by norm_num)]
    norm_num [h7]
    rw [scanLoop, dif_neg (by norm_num)]
  have hS : find_primes_near (some []) 4 2 "smaller" = [3, 2] := by
    rw [find_primes_near_some_smaller]
    rw [scanLoop, dif_pos (by norm_num)]
    norm_num [h3]
    rw [scanLoop, dif_pos (by norm_num)]
    norm_num [h2]
    rw [scanLoop, dif_neg (by norm_num)]
  have heval : find_closest_primes (some []) 4 2 = [(5, 1), (3, 1)] := by
    rw [find_closest_primes_def, hL, hS]
    norm_num [List.mergeSort, List.splitInTwo, List.splitAt, List.splitAt.go,
      List.merge]
  refine ⟨heval, ?_⟩
  exact closest_primes_ties_up_before_down (some []) 4 2 1 0 (5, 1) (3, 1)
    (by rw [heval]; rfl) (by rw [heval]; rfl) (by norm_num) (by norm_num)
    (by norm_num)

/-- Each of the 36 alphabet characters decodes back to its index. -/
lemma base36DigitVal_getD : ∀ d, d < 36 →
    base36DigitVal (base36Chars.getD d '0') = d := by decide

/-- Folding the decoder from an arbitrary seed scales the seed by a power of
36. -/
lemma to_base10_foldl (r : Nat) (l : List Char) :
    l.foldl (fun result c => result * 36 + base36DigitVal c) r =
      r * 36 ^ l.length + to_base10 l := by
  induction l generalizing r with
  | nil => simp [to_base10]
  | cons c t ih =>
    unfold to_base10
    simp only [List.foldl_cons]
    rw [ih (r * 36 + base36DigitVal c), ih (0 * 36 + base36DigitVal c),
      List.length_cons]
    ring

/-- Invariant of the encoder loop: decoding the produced characters recovers
the remaining number scaled past the accumulator. -/
lemma to_base36_loop_correct :
    ∀ number acc, to_base10 (to_base36_loop number acc) =
      number * 36 ^ acc.length + to_base10 acc := by
  refine to_base36_loop.induct
    (fun number acc => to_base10 (to_base36_loop number acc) =
      number * 36 ^ acc.length + to_base10 acc) ?_ ?_
  · intro n acc h ih
    rw [to_base36_loop, dif_pos h]
    rw [ih]
    have hv : base36DigitVal (base36Chars.getD (n % 36) '0') = n % 36 :=
      base36DigitVal_getD (n % 36) (Nat.mod_lt n (by omega))
    have hcons : to_base10 (base36Chars.getD (n % 36) '0' :: acc) =
        (n % 36) * 36 ^ acc.length + to_base10 acc := by
      unfold to_base10
      simp only [List.foldl_cons]
      rw [to_base10_foldl (0 * 36 + base36DigitVal (base36Chars.getD (n % 36) '0')),
        hv]
      ring_nf
      rfl
    rw [List.length_cons, hcons]
    have h36 : 36 * (n / 36) + n % 36 = n := Nat.div_add_mod n 36
    calc n / 36 * 36 ^ (acc.length + 1) + ((n % 36) * 36 ^ acc.length + to_base10 acc)
        = (36 * (n / 36) + n % 36) * 36 ^ acc.length + to_base10 acc := by ring
      _ = n * 36 ^ acc.length + to_base10 acc := by rw [h36]
  · intro n acc h
    rw [to_base36_loop, dif_neg h]
    have hn : n = 0 := by omega
    subst hn
    simp

/-- C10: for every non-negative integer `n`,
`to_base10 (to_base36 n) = n` — encoding to a base-36 string over digits 0-9
and uppercase A-Z and decoding returns the original integer. -/
theorem base36_roundtrip (n : Nat) : to_base10 (to_base36 n) = n := by
  unfold to_base36
  by_cases h : n = 0
  · subst h
    rw [if_pos rfl]
    decide
  · rw [if_neg h]
    have := to_base36_loop_correct n []
    simpa [to_base10] using this

end SimpleFinder
